import Mathlib

/-!
Verification of the LODvisual sampling-and-aggregation engine.

The JavaScript source (src/index.js and the variant script src/unnamed/part_000)
is shallowly embedded: JavaScript objects used as string-keyed maps become
association lists (`List (String × _)`) whose list order is the object's key
insertion order; callback-driven streams become explicit event lists; promise
settlement becomes an explicit `Outcome` with first-settle-wins semantics;
JavaScript numbers used for the sampling arithmetic become exact rationals.
-/

set_option autoImplicit false

/-- An RDF triple as produced by the N3 parser: four strings, where the graph
component is the empty string for the default (data) graph. -/
structure Triple where
  subject : String
  predicate : String
  object : String
  graph : String
deriving DecidableEq

/-- The three term positions of a triple, matching the array
`[triple.subject, triple.predicate, triple.object]` iterated by the source. -/
inductive TPos where
  | subj
  | pred
  | obj
deriving DecidableEq

/-- The term of a triple at a given position. -/
def termAt (t : Triple) : TPos → String
  | TPos.subj => t.subject
  | TPos.pred => t.predicate
  | TPos.obj => t.object

/-- Lookup in a JavaScript-object-as-map: the value stored at key `k`,
if present (keys of a JavaScript object are unique; on our association
lists the first occurrence is the binding). -/
def lookupKey {α : Type} : List (String × α) → String → Option α
  | [], _ => none
  | (k', v) :: t, k => if k' = k then some v else lookupKey t k

/-- The count stored for `k`, defaulting to 0: models `(m[k] || 0)`. -/
def countOf (m : List (String × Nat)) (k : String) : Nat :=
  match lookupKey m k with
  | none => 0
  | some v => v

/-- Models `m[k] = (m[k] || 0) + v` on a JavaScript object: update the
binding in place if the key exists, otherwise append a new binding
(JavaScript objects keep insertion order). -/
def incrBy : List (String × Nat) → String → Nat → List (String × Nat)
  | [], k, v => [(k, v)]
  | (k', w) :: t, k, v =>
      if k' = k then (k', w + v) :: t else (k', w) :: incrBy t k v

/-- Total of all counts in a host-count map. -/
def totalCount (m : List (String × Nat)) : Nat :=
  (m.map Prod.snd).sum

/-- One triple's contribution to the host-count map, from the page callback in
`analyseData`: triples on a non-empty graph are skipped entirely; otherwise
each of subject, predicate, object that satisfies the IRI test has its host
extracted and counted. `isIRI` models `N3.Util.isIRI` and `host` models
`urlparse(elem).host`; both are library functions, taken as parameters. -/
def aggTriple (isIRI : String → Bool) (host : String → String)
    (urls : List (String × Nat)) (t : Triple) : List (String × Nat) :=
  if t.graph ≠ "" then urls
  else
    [t.subject, t.predicate, t.object].foldl
      (fun u e => if isIRI e then incrBy u (host e) 1 else u) urls

/-- Aggregation of a whole sequence of delivered triples into a host-count
map, starting from the empty map (`var urls = {}`). -/
def aggregateTriples (isIRI : String → Bool) (host : String → String)
    (ts : List Triple) : List (String × Nat) :=
  ts.foldl (aggTriple isIRI host) []

/-- The (triple, position) pairs that the aggregation counts: the triple's
graph is empty and the term at the position passes the IRI test. -/
def iriPairs (isIRI : String → Bool) (ts : List Triple) : List (Triple × TPos) :=
  (ts.flatMap (fun t => [(t, TPos.subj), (t, TPos.pred), (t, TPos.obj)])).filter
    (fun p => p.1.graph == "" && isIRI (termAt p.1 p.2))

theorem totalCount_incrBy (m : List (String × Nat)) (k : String) (v : Nat) :
    totalCount (incrBy m k v) = totalCount m + v := by
  induction m with
  | nil => simp [incrBy, totalCount]
  | cons p t ih =>
      obtain ⟨k', w⟩ := p
      by_cases h : k' = k
      · simp [incrBy, h, totalCount]
        omega
      · simp [incrBy, h, totalCount] at ih ⊢
        omega

theorem totalCount_aggTriple (isIRI : String → Bool) (host : String → String)
    (u : List (String × Nat)) (t : Triple) :
    totalCount (aggTriple isIRI host u t) =
      totalCount u + (iriPairs isIRI [t]).length := by
  unfold aggTriple iriPairs
  by_cases hg : t.graph = ""
  · simp only [hg, ne_eq, not_true_eq_false, if_false, List.flatMap_cons,
      List.flatMap_nil, List.append_nil]
    simp only [List.foldl_cons, List.foldl_nil]
    cases hs : isIRI t.subject <;> cases hp : isIRI t.predicate <;>
      cases ho : isIRI t.object <;>
      simp [List.filter, termAt, hs, hp, ho, hg, totalCount_incrBy]
  · have hb : (t.graph == "") = false := by
      simp [hg]
    simp [hg, hb, List.filter, totalCount]

theorem totalCount_foldl_aggTriple (isIRI : String → Bool) (host : String → String)
    (ts : List Triple) :
    ∀ u : List (String × Nat),
      totalCount (ts.foldl (aggTriple isIRI host) u) =
        totalCount u + (iriPairs isIRI ts).length := by
  induction ts with
  | nil => intro u; simp [iriPairs]
  | cons t ts ih =>
      intro u
      have happ : iriPairs isIRI (t :: ts) = iriPairs isIRI [t] ++ iriPairs isIRI ts := by
        unfold iriPairs
        rw [List.flatMap_cons, List.filter_append]
        simp
      have hsplit : (iriPairs isIRI (t :: ts)).length =
          (iriPairs isIRI [t]).length + (iriPairs isIRI ts).length := by
        rw [happ, List.length_append]
      rw [List.foldl_cons, ih, totalCount_aggTriple, hsplit]
      omega

/-- C2: for a fixed set of triples delivered to one dataset's aggregation, the
total of all counts in the resulting host-count map equals the number of
(triple, position) pairs over subject/predicate/object whose triple has an
empty graph and whose term passes the IRI test (from which a host is then
extracted); non-empty-graph triples contribute nothing and duplicate hosts
within one triple are each counted separately. -/
theorem aggregate_total_counts (isIRI : String → Bool) (host : String → String)
    (ts : List Triple) :
    totalCount (aggregateTriples isIRI host ts) = (iriPairs isIRI ts).length := by
  unfold aggregateTriples
  rw [totalCount_foldl_aggTriple]
  simp [totalCount]

/-- The sampling factor of the fuller script variant (`SAMPLING_FACTOR = 0.05`);
the other variant uses 0.5. The sampling arithmetic below takes the factor as
a parameter. -/
def samplingFactorMain : ℚ := 5 / 100

/-- Models `var maxPage = Math.ceil(numTriples / 100.)` exactly on rationals. -/
def maxPageZ (n : ℤ) : ℤ := ⌈(n : ℚ) / 100⌉

/-- Models `var pagesToSample = Math.ceil(numTriples * SAMPLING_FACTOR / 100)`. -/
def pagesToSampleZ (n : ℤ) (factor : ℚ) : ℤ := ⌈(n : ℚ) * factor / 100⌉

/-- Models `var pageInterval = maxPage / pagesToSample` (real-valued JavaScript
division; its value is only consulted when the sampling loop runs, in which
case `pagesToSample` is positive). -/
def pageIntervalQ (n : ℤ) (factor : ℚ) : ℚ :=
  (maxPageZ n : ℚ) / (pagesToSampleZ n factor : ℚ)

/-- The page-index values emitted by the sampling loop: `1 + i * pageInterval`
for `i` in `[0, pagesToSample)`, as exact rationals (the source interpolates
the possibly fractional value straight into the page URL). -/
def sampleIndices (n : ℤ) (factor : ℚ) : List ℚ :=
  (List.range (pagesToSampleZ n factor).toNat).map
    (fun i : ℕ => 1 + (i : ℚ) * pageIntervalQ n factor)

theorem pagesToSampleZ_pos (n : ℤ) (factor : ℚ) (hn : 0 < n) (hf : 0 < factor) :
    0 < pagesToSampleZ n factor := by
  unfold pagesToSampleZ
  rw [Int.ceil_pos]
  positivity

theorem pagesToSampleZ_le_maxPageZ (n : ℤ) (factor : ℚ) (hn : 0 < n)
    (hf1 : factor ≤ 1) :
    pagesToSampleZ n factor ≤ maxPageZ n := by
  unfold pagesToSampleZ maxPageZ
  apply Int.ceil_le_ceil
  have hn' : (0 : ℚ) < (n : ℚ) := by exact_mod_cast hn
  have : (n : ℚ) * factor ≤ (n : ℚ) := by nlinarith
  linarith

/-- C1: for every positive declared triple count and sampling factor in (0, 1]
(page size fixed at 100 by the source), the sampling loop emits between 1 and
`maxPage` page indices, and every emitted index lies within `[1, maxPage]`. -/
theorem sampleIndices_in_range (n : ℤ) (factor : ℚ)
    (hn : 0 < n) (hf0 : 0 < factor) (hf1 : factor ≤ 1) :
    1 ≤ (sampleIndices n factor).length ∧
    (sampleIndices n factor).length ≤ (maxPageZ n).toNat ∧
    ∀ x ∈ sampleIndices n factor, 1 ≤ x ∧ x ≤ (maxPageZ n : ℚ) := by
  have hp : 0 < pagesToSampleZ n factor := pagesToSampleZ_pos n factor hn hf0
  have hpm : pagesToSampleZ n factor ≤ maxPageZ n :=
    pagesToSampleZ_le_maxPageZ n factor hn hf1
  have hm : 0 < maxPageZ n := lt_of_lt_of_le hp hpm
  have hlen : (sampleIndices n factor).length = (pagesToSampleZ n factor).toNat := by
    unfold sampleIndices
    rw [List.length_map, List.length_range]
  have hpQ : (0 : ℚ) < ((pagesToSampleZ n factor : ℤ) : ℚ) := by exact_mod_cast hp
  have hpmQ : ((pagesToSampleZ n factor : ℤ) : ℚ) ≤ ((maxPageZ n : ℤ) : ℚ) := by
    exact_mod_cast hpm
  have hintpos : 0 ≤ pageIntervalQ n factor := by
    unfold pageIntervalQ
    positivity
  have hintone : 1 ≤ pageIntervalQ n factor := by
    unfold pageIntervalQ
    rw [le_div_iff₀ hpQ]
    linarith
  refine ⟨?_, ?_, ?_⟩
  · rw [hlen]
    omega
  · rw [hlen]
    omega
  · intro x hx
    simp only [sampleIndices, List.mem_map, List.mem_range] at hx
    obtain ⟨i, hi, rfl⟩ := hx
    constructor
    · have : (0 : ℚ) ≤ (i : ℚ) * pageIntervalQ n factor := by positivity
      linarith
    · have hi' : (i : ℚ) ≤ ((pagesToSampleZ n factor : ℤ) : ℚ) - 1 := by
        have : (i : ℤ) < pagesToSampleZ n factor := by
          omega
        have : ((i : ℤ) : ℚ) ≤ ((pagesToSampleZ n factor : ℤ) : ℚ) - 1 := by
          exact_mod_cast Int.le_sub_one_of_lt this
        exact_mod_cast this
      have hmul : (i : ℚ) * pageIntervalQ n factor ≤
          (((pagesToSampleZ n factor : ℤ) : ℚ) - 1) * pageIntervalQ n factor := by
        apply mul_le_mul_of_nonneg_right hi' hintpos
      have hval : (((pagesToSampleZ n factor : ℤ) : ℚ) - 1) * pageIntervalQ n factor =
          ((maxPageZ n : ℤ) : ℚ) - pageIntervalQ n factor := by
        unfold pageIntervalQ
        field_simp
        ring
      rw [hval] at hmul
      linarith

/-- Concrete instance of C1 at `declaredTriples = 1000`, factor `1/10`. -/
theorem sampleIndices_in_range_witness :
    1 ≤ (sampleIndices 1000 (1 / 10)).length ∧
    (sampleIndices 1000 (1 / 10)).length ≤ (maxPageZ 1000).toNat ∧
    ∀ x ∈ sampleIndices 1000 (1 / 10), 1 ≤ x ∧ x ≤ (maxPageZ 1000 : ℚ) :=
  sampleIndices_in_range 1000 (1 / 10) (by norm_num) (by norm_num) (by norm_num)

/-- Dataset record as built from the discovery step plus the attached
host-occurrence map (`dataset.hostOccurrences = analysis`). -/
structure DatasetInfo where
  ldfEndpoint : String
  source : String
  triples : Nat
  hostOccurrences : List (String × Nat)
deriving DecidableEq

/-- Provenance record `{ldf, url, numTriples}` built by `process`. -/
structure Provenance where
  ldf : String
  url : String
  numTriples : Nat
deriving DecidableEq

/-- Result record of `process`. -/
structure ProcessedDataset where
  mostOccurringHost : Option String
  provenance : Provenance
  referencedHosts : List (String × Nat)
deriving DecidableEq

/-- One step of the selection loop in `process`: a strictly greater count
replaces the current best, so ties keep the earlier key. -/
def selStep (acc : Option String × Nat) (p : String × Nat) : Option String × Nat :=
  if p.2 > acc.2 then (some p.1, p.2) else acc

/-- The `for (var key in hostOccurrences)` loop of `process`, started from
`mostOccurringHost = null, occurrences = 0`. -/
def selBest (m : List (String × Nat)) : Option String × Nat :=
  m.foldl selStep (none, 0)

/-- JavaScript property-key coercion: a `null` host selects the key `"null"`
(`delete obj[null]` and `acc[null]` both address the property `"null"`). -/
def jsKeyOf : Option String → String
  | some s => s
  | none => "null"

/-- Models `delete m[k]` on a JavaScript object: remove the binding for `k`
(first occurrence in the association list; keys are unique in an object). -/
def deleteKey : List (String × Nat) → String → List (String × Nat)
  | [], _ => []
  | (k', v) :: t, k => if k' = k then t else (k', v) :: deleteKey t k

/-- The `process` function: select the most occurring host, delete it from
the occurrence map, and package the provenance record. -/
def process (d : DatasetInfo) : ProcessedDataset :=
  { mostOccurringHost := (selBest d.hostOccurrences).1,
    provenance := ⟨d.ldfEndpoint, d.source, d.triples⟩,
    referencedHosts := deleteKey d.hostOccurrences (jsKeyOf (selBest d.hostOccurrences).1) }

theorem selBest_foldl_spec (m : List (String × Nat)) :
    ∀ (b₀ : Option String) (o₀ : Nat),
      (m.foldl selStep (b₀, o₀) = (b₀, o₀) ∧ ∀ p ∈ m, p.2 ≤ o₀) ∨
      (∃ l₁ k o l₂, m = l₁ ++ (k, o) :: l₂ ∧
        m.foldl selStep (b₀, o₀) = (some k, o) ∧ o₀ < o ∧
        (∀ p ∈ l₁, p.2 < o) ∧ (∀ p ∈ l₂, p.2 ≤ o)) := by
  induction m with
  | nil =>
      intro b₀ o₀
      left
      simp
  | cons hd t ih =>
      intro b₀ o₀
      obtain ⟨k₁, v₁⟩ := hd
      by_cases h : v₁ > o₀
      · have hstep : selStep (b₀, o₀) (k₁, v₁) = (some k₁, v₁) := by
          simp [selStep, h]
        rcases ih (some k₁) v₁ with ⟨heq, hall⟩ | ⟨l₁, k, o, l₂, hm, hres, hlt, h1, h2⟩
        · right
          refine ⟨[], k₁, v₁, t, by simp, ?_, h, by simp, hall⟩
          rw [List.foldl_cons, hstep, heq]
        · right
          refine ⟨(k₁, v₁) :: l₁, k, o, l₂, by rw [hm]; simp, ?_, lt_trans h hlt, ?_, h2⟩
          · rw [List.foldl_cons, hstep, hres]
          · intro p hp
            rcases List.mem_cons.mp hp with rfl | hp'
            · exact hlt
            · exact h1 p hp'
      · have hv : v₁ ≤ o₀ := le_of_not_lt h
        have hstep : selStep (b₀, o₀) (k₁, v₁) = (b₀, o₀) := by
          simp [selStep, h]
        rcases ih b₀ o₀ with ⟨heq, hall⟩ | ⟨l₁, k, o, l₂, hm, hres, hlt, h1, h2⟩
        · left
          constructor
          · rw [List.foldl_cons, hstep, heq]
          · intro p hp
            rcases List.mem_cons.mp hp with rfl | hp'
            · exact hv
            · exact hall p hp'
        · right
          refine ⟨(k₁, v₁) :: l₁, k, o, l₂, by rw [hm]; simp, ?_, hlt, ?_, h2⟩
          · rw [List.foldl_cons, hstep, hres]
          · intro p hp
            rcases List.mem_cons.mp hp with rfl | hp'
            · exact lt_of_le_of_lt hv hlt
            · exact h1 p hp'

theorem not_mem_deleteKey (m : List (String × Nat)) (k : String)
    (hnd : (m.map Prod.fst).Nodup) : k ∉ (deleteKey m k).map Prod.fst := by
  induction m with
  | nil => simp [deleteKey]
  | cons p t ih =>
      obtain ⟨k', v⟩ := p
      rw [List.map_cons, List.nodup_cons] at hnd
      by_cases h : k' = k
      · subst h
        simp only [deleteKey, if_pos rfl]
        exact hnd.1
      · simp only [deleteKey, if_neg h, List.map_cons, List.mem_cons]
        intro hor
        rcases hor with heq | hmem
        · exact h heq.symm
        · exact ih hnd.2 hmem

/-- C5: for every non-empty host-count map with positive counts and unique
keys given to `process`, the selected `mostOccurringHost` is a key of the map
whose count is maximal, ties are broken in favour of the key occurring first
in the map's iteration order (every earlier key has a strictly smaller
count), and the selected key is absent from the returned `referencedHosts`. -/
theorem process_selects_first_max (d : DatasetInfo)
    (hne : d.hostOccurrences ≠ [])
    (hpos : ∀ p ∈ d.hostOccurrences, 0 < p.2)
    (hnd : (d.hostOccurrences.map Prod.fst).Nodup) :
    ∃ k occ l₁ l₂,
      (process d).mostOccurringHost = some k ∧
      d.hostOccurrences = l₁ ++ (k, occ) :: l₂ ∧
      (∀ p ∈ d.hostOccurrences, p.2 ≤ occ) ∧
      (∀ p ∈ l₁, p.2 < occ) ∧
      k ∉ (process d).referencedHosts.map Prod.fst := by
  rcases selBest_foldl_spec d.hostOccurrences none 0 with ⟨heq, hall⟩ |
    ⟨l₁, k, o, l₂, hm, hres, hlt, h1, h2⟩
  · obtain ⟨p, hp⟩ := List.exists_mem_of_ne_nil d.hostOccurrences hne
    exact absurd (hall p hp) (by have := hpos p hp; omega)
  · refine ⟨k, o, l₁, l₂, ?_, hm, ?_, h1, ?_⟩
    · show (selBest d.hostOccurrences).1 = some k
      unfold selBest
      rw [hres]
    · intro p hp
      rw [hm] at hp
      rcases List.mem_append.mp hp with hp' | hp'
      · exact le_of_lt (h1 p hp')
      · rcases List.mem_cons.mp hp' with rfl | hp''
        · exact le_refl _
        · exact h2 p hp''
    · have hsel : (selBest d.hostOccurrences).1 = some k := by
        unfold selBest
        rw [hres]
      show k ∉ (deleteKey d.hostOccurrences (jsKeyOf (selBest d.hostOccurrences).1)).map Prod.fst
      rw [hsel]
      exact not_mem_deleteKey d.hostOccurrences k hnd

/-- Concrete dataset used to witness C5. -/
def witnessInfo : DatasetInfo :=
  ⟨"e", "s", 7, [("a", 2), ("b", 3), ("c", 3)]⟩

/-- Concrete instance of C5: on `{a: 2, b: 3, c: 3}` the first maximal key is
selected and removed. -/
theorem process_selects_first_max_witness :
    ∃ k occ l₁ l₂,
      (process witnessInfo).mostOccurringHost = some k ∧
      witnessInfo.hostOccurrences = l₁ ++ (k, occ) :: l₂ ∧
      (∀ p ∈ witnessInfo.hostOccurrences, p.2 ≤ occ) ∧
      (∀ p ∈ l₁, p.2 < occ) ∧
      k ∉ (process witnessInfo).referencedHosts.map Prod.fst :=
  process_selects_first_max witnessInfo (by decide) (by decide) (by decide)

/-- C10: on an empty host-count map, `process` returns a `null` most occurring
host, the dataset's provenance record, and an empty `referencedHosts` map
(the deletion of the selected key is a no-op). -/
theorem process_empty_map (ldf src : String) (n : Nat) :
    process ⟨ldf, src, n, []⟩ =
      ⟨none, ⟨ldf, src, n⟩, []⟩ := rfl

/-- One provider entry of the merged output mapping. -/
structure MergedEntry where
  triples : Nat
  provenance : List Provenance
  referencedHosts : List (String × Nat)
deriving DecidableEq

/-- Replace the value bound to an existing key, keeping its position
(models mutating the fields of `acc[host]` in place). -/
def updateKey {α : Type} : List (String × α) → String → α → List (String × α)
  | [], _, _ => []
  | (k', v) :: t, k, w => if k' = k then (k', w) :: t else (k', v) :: updateKey t k w

/-- Models `Object.keys(cur).reduce((sum, key) => sum[key] = (sum[key] || 0) + cur[key], sum)`:
fold the entries of `c` into `s`. -/
def addCounts (s c : List (String × Nat)) : List (String × Nat) :=
  c.foldl (fun acc p => incrBy acc p.1 p.2) s

/-- The entry created when a dominant host is first seen:
`{triples: numTriples, provenance: [provenance], referencedHosts: referencedHosts}`
(the host-count map is the dataset's own, not a copy; the pure value model
here records the value, the store model below records the aliasing). -/
def seedEntry (d : ProcessedDataset) : MergedEntry :=
  ⟨d.provenance.numTriples, [d.provenance], d.referencedHosts⟩

/-- Merging one further dataset into an existing entry: add the triples,
append the provenance record, and add the host counts. -/
def stepEntry (e : MergedEntry) (d : ProcessedDataset) : MergedEntry :=
  ⟨e.triples + d.provenance.numTriples,
   e.provenance ++ [d.provenance],
   addCounts e.referencedHosts d.referencedHosts⟩

/-- One step of the final `reduce`: seed a new entry for an unseen dominant
host, otherwise merge into the existing entry. -/
def mergeStep (acc : List (String × MergedEntry)) (d : ProcessedDataset) :
    List (String × MergedEntry) :=
  match lookupKey acc (jsKeyOf d.mostOccurringHost) with
  | none => acc ++ [(jsKeyOf d.mostOccurringHost, seedEntry d)]
  | some e => updateKey acc (jsKeyOf d.mostOccurringHost) (stepEntry e d)

/-- The whole merge reduction, starting from the empty accumulator object. -/
def mergeAll (l : List ProcessedDataset) : List (String × MergedEntry) :=
  l.foldl mergeStep []

/-- Folding a list of further datasets into an entry. -/
def extendEntry (e : MergedEntry) (ds : List ProcessedDataset) : MergedEntry :=
  ds.foldl stepEntry e

/-- Total mass an association list carries at key `k` (sum over all bindings;
it agrees with `countOf` when keys are unique). -/
def massAt (m : List (String × Nat)) (k : String) : Nat :=
  (m.map (fun p => if p.1 = k then p.2 else 0)).sum

/-- The datasets of `l` whose dominant-host output key is `h`, in input order. -/
def hostFilter (h : String) (l : List ProcessedDataset) : List ProcessedDataset :=
  l.filter (fun d => jsKeyOf d.mostOccurringHost == h)

/-- The `triples` field of the merged entry at key `h`, if present. -/
def triplesAt (acc : List (String × MergedEntry)) (h : String) : Option Nat :=
  (lookupKey acc h).map MergedEntry.triples

/-- The count the merged entry at `h` assigns to host `k` (0 when absent). -/
def refCountAt (acc : List (String × MergedEntry)) (h k : String) : Nat :=
  match lookupKey acc h with
  | none => 0
  | some e => countOf e.referencedHosts k

/-- The provenance list of the merged entry at `h` (empty when absent). -/
def provAt (acc : List (String × MergedEntry)) (h : String) : List Provenance :=
  match lookupKey acc h with
  | none => []
  | some e => e.provenance

theorem lookupKey_append_single {α : Type} (acc : List (String × α)) (k h : String)
    (x : α) :
    lookupKey (acc ++ [(k, x)]) h =
      match lookupKey acc h with
      | some v => some v
      | none => if k = h then some x else none := by
  induction acc with
  | nil => simp [lookupKey]
  | cons p t ih =>
      obtain ⟨k', v⟩ := p
      by_cases hk : k' = h
      · simp [lookupKey, hk]
      · simp only [List.cons_append, lookupKey, if_neg hk]
        exact ih

theorem lookupKey_updateKey {α : Type} (acc : List (String × α)) (k h : String)
    (w : α) (e : α) (hl : lookupKey acc k = some e) :
    lookupKey (updateKey acc k w) h =
      if k = h then some w else lookupKey acc h := by
  induction acc with
  | nil => simp [lookupKey] at hl
  | cons p t ih =>
      obtain ⟨k', v⟩ := p
      by_cases hk : k' = k
      · subst hk
        by_cases hh : k' = h
        · subst hh
          simp [updateKey, lookupKey]
        · simp [updateKey, lookupKey, hh]
      · have hl' : lookupKey t k = some e := by
          simpa [lookupKey, hk] using hl
        by_cases hh : k' = h
        · subst hh
          have hkh : ¬(k = k') := fun hs => hk hs.symm
          simp [updateKey, hk, lookupKey, hkh]
        · simp [updateKey, hk, lookupKey, hh, ih hl']

theorem countOf_incrBy_eq (m : List (String × Nat)) (k k' : String) (v : Nat) :
    countOf (incrBy m k v) k' = countOf m k' + (if k' = k then v else 0) := by
  induction m with
  | nil =>
      by_cases h : k' = k
      · subst h
        simp [incrBy, countOf, lookupKey]
      · have h' : ¬(k = k') := fun hs => h hs.symm
        simp [incrBy, countOf, lookupKey, h, h']
  | cons p t ih =>
      obtain ⟨k₀, w⟩ := p
      by_cases h0 : k₀ = k
      · subst h0
        by_cases h1 : k₀ = k'
        · subst h1
          simp [incrBy, countOf, lookupKey]
        · have : ¬(k' = k₀) := fun hs => h1 hs.symm
          simp [incrBy, countOf, lookupKey, h1, this]
      · by_cases h1 : k₀ = k'
        · subst h1
          simp [incrBy, countOf, lookupKey, h0]
        · simp [incrBy, countOf, lookupKey, h0, h1] at ih ⊢
          exact ih

theorem countOf_addCounts (c : List (String × Nat)) :
    ∀ (s : List (String × Nat)) (k : String),
      countOf (addCounts s c) k = countOf s k + massAt c k := by
  induction c with
  | nil => intro s k; simp [addCounts, massAt]
  | cons p t ih =>
      intro s k
      obtain ⟨k₀, v⟩ := p
      have : addCounts s ((k₀, v) :: t) = addCounts (incrBy s k₀ v) t := rfl
      rw [this, ih, countOf_incrBy_eq]
      simp only [massAt, List.map_cons, List.sum_cons]
      by_cases h : k = k₀
      · subst h
        simp
        omega
      · have : ¬(k₀ = k) := fun hs => h hs.symm
        simp [h, this]

theorem massAt_of_not_mem (m : List (String × Nat)) (k : String)
    (h : k ∉ m.map Prod.fst) : massAt m k = 0 := by
  induction m with
  | nil => simp [massAt]
  | cons p t ih =>
      obtain ⟨k₀, v⟩ := p
      rw [List.map_cons, List.mem_cons] at h
      push_neg at h
      have hne : ¬(k₀ = k) := fun hs => h.1 hs.symm
      simp only [massAt, List.map_cons, List.sum_cons, if_neg hne]
      simpa [massAt] using ih h.2

theorem countOf_eq_massAt (m : List (String × Nat)) (k : String)
    (hnd : (m.map Prod.fst).Nodup) : countOf m k = massAt m k := by
  induction m with
  | nil => simp [countOf, lookupKey, massAt]
  | cons p t ih =>
      obtain ⟨k₀, v⟩ := p
      rw [List.map_cons, List.nodup_cons] at hnd
      by_cases h : k₀ = k
      · subst h
        have h0 : massAt t k₀ = 0 := massAt_of_not_mem t k₀ hnd.1
        simp only [massAt] at h0
        simp [countOf, lookupKey, massAt, h0]
      · simp only [countOf, lookupKey, if_neg h, massAt, List.map_cons,
          List.sum_cons, if_neg h, Nat.zero_add]
        exact ih hnd.2

theorem lookupKey_mergeStep (acc : List (String × MergedEntry)) (d : ProcessedDataset)
    (h : String) :
    lookupKey (mergeStep acc d) h =
      if jsKeyOf d.mostOccurringHost = h then
        match lookupKey acc h with
        | none => some (seedEntry d)
        | some e => some (stepEntry e d)
      else lookupKey acc h := by
  unfold mergeStep
  cases hl : lookupKey acc (jsKeyOf d.mostOccurringHost) with
  | none =>
      rw [lookupKey_append_single]
      by_cases hk : jsKeyOf d.mostOccurringHost = h
      · subst hk
        rw [hl]
      · simp only [if_neg hk]
        cases lookupKey acc h <;> simp [hk]
  | some e =>
      rw [lookupKey_updateKey acc _ h _ e hl]
      by_cases hk : jsKeyOf d.mostOccurringHost = h
      · subst hk
        rw [hl]
      · simp [hk]

theorem lookupKey_foldl_mergeStep (l : List ProcessedDataset) :
    ∀ (acc : List (String × MergedEntry)) (h : String),
      lookupKey (l.foldl mergeStep acc) h =
        match lookupKey acc h with
        | some e => some (extendEntry e (hostFilter h l))
        | none =>
            match hostFilter h l with
            | [] => none
            | d :: ds => some (extendEntry (seedEntry d) ds) := by
  induction l with
  | nil =>
      intro acc h
      cases hl : lookupKey acc h <;> simp [hostFilter, extendEntry, hl]
  | cons d t ih =>
      intro acc h
      rw [List.foldl_cons, ih (mergeStep acc d) h, lookupKey_mergeStep]
      by_cases hk : jsKeyOf d.mostOccurringHost = h
      · have hfil : hostFilter h (d :: t) = d :: hostFilter h t := by
          simp [hostFilter, List.filter_cons, hk]
        rw [hfil, if_pos hk]
        cases hl : lookupKey acc h with
        | none => simp [extendEntry]
        | some e => simp [extendEntry]
      · have hfil : hostFilter h (d :: t) = hostFilter h t := by
          simp [hostFilter, List.filter_cons, hk]
        rw [hfil, if_neg hk]

theorem extendEntry_triples (ds : List ProcessedDataset) :
    ∀ e : MergedEntry, (extendEntry e ds).triples =
      e.triples + (ds.map (fun d => d.provenance.numTriples)).sum := by
  induction ds with
  | nil => intro e; simp [extendEntry]
  | cons d t ih =>
      intro e
      have h1 : extendEntry e (d :: t) = extendEntry (stepEntry e d) t := rfl
      rw [h1, ih]
      simp [stepEntry]
      omega

theorem extendEntry_prov (ds : List ProcessedDataset) :
    ∀ e : MergedEntry, (extendEntry e ds).provenance =
      e.provenance ++ ds.map ProcessedDataset.provenance := by
  induction ds with
  | nil => intro e; simp [extendEntry]
  | cons d t ih =>
      intro e
      have h1 : extendEntry e (d :: t) = extendEntry (stepEntry e d) t := rfl
      rw [h1, ih]
      simp [stepEntry]

theorem extendEntry_count (ds : List ProcessedDataset) :
    ∀ (e : MergedEntry) (k : String),
      countOf (extendEntry e ds).referencedHosts k =
        countOf e.referencedHosts k +
          (ds.map (fun d => massAt d.referencedHosts k)).sum := by
  induction ds with
  | nil => intro e k; simp [extendEntry]
  | cons d t ih =>
      intro e k
      have h1 : extendEntry e (d :: t) = extendEntry (stepEntry e d) t := rfl
      rw [h1, ih]
      simp only [stepEntry]
      rw [countOf_addCounts]
      simp only [List.map_cons, List.sum_cons]
      omega

theorem provAt_mergeAll (l : List ProcessedDataset) (h : String) :
    provAt (mergeAll l) h = (hostFilter h l).map ProcessedDataset.provenance := by
  unfold provAt mergeAll
  rw [lookupKey_foldl_mergeStep]
  simp only [lookupKey]
  cases hf : hostFilter h l with
  | nil => simp
  | cons d ds => simp [extendEntry_prov, seedEntry]

theorem triplesAt_mergeAll (l : List ProcessedDataset) (h : String) :
    triplesAt (mergeAll l) h =
      if hostFilter h l = [] then none
      else some (((hostFilter h l).map (fun d => d.provenance.numTriples)).sum) := by
  unfold triplesAt mergeAll
  rw [lookupKey_foldl_mergeStep]
  simp only [lookupKey]
  cases hf : hostFilter h l with
  | nil => simp
  | cons d ds => simp [extendEntry_triples, seedEntry]

theorem refCountAt_mergeAll (l : List ProcessedDataset) (h k : String)
    (hnd : ∀ d ∈ l, (d.referencedHosts.map Prod.fst).Nodup) :
    refCountAt (mergeAll l) h k =
      ((hostFilter h l).map (fun d => massAt d.referencedHosts k)).sum := by
  unfold refCountAt mergeAll
  rw [lookupKey_foldl_mergeStep]
  simp only [lookupKey]
  cases hf : hostFilter h l with
  | nil => simp
  | cons d ds =>
      have hd : d ∈ l := by
        have hmem : d ∈ hostFilter h l := by
          rw [hf]
          exact List.mem_cons_self d ds
        have hmem' : d ∈ l.filter (fun d => jsKeyOf d.mostOccurringHost == h) := hmem
        exact (List.mem_filter.mp hmem').1
      simp only [List.map_cons, List.sum_cons]
      rw [extendEntry_count]
      have hcm : countOf (seedEntry d).referencedHosts k = massAt d.referencedHosts k := by
        have := countOf_eq_massAt d.referencedHosts k (hnd d hd)
        simpa [seedEntry] using this
      rw [hcm]

/-- C6: merging processed datasets in any order (any permutation of the
reduction input, with each input's host map having unique keys as JavaScript
objects do) yields the same `triples` value and the same `referencedHosts`
count for every dominant-host output key; the provenance lists of the two
orders are permutations of each other, and in each output entry the
provenance records appear in input order (the entry's list is exactly the
input-order filter of the contributing datasets). -/
theorem merge_perm_invariant (l₁ l₂ : List ProcessedDataset)
    (hperm : l₁.Perm l₂)
    (hnd : ∀ d ∈ l₁, (d.referencedHosts.map Prod.fst).Nodup) :
    (∀ h, triplesAt (mergeAll l₁) h = triplesAt (mergeAll l₂) h) ∧
    (∀ h k, refCountAt (mergeAll l₁) h k = refCountAt (mergeAll l₂) h k) ∧
    (∀ h, (provAt (mergeAll l₁) h).Perm (provAt (mergeAll l₂) h)) ∧
    (∀ h, provAt (mergeAll l₁) h = (hostFilter h l₁).map ProcessedDataset.provenance) ∧
    (∀ h, provAt (mergeAll l₂) h = (hostFilter h l₂).map ProcessedDataset.provenance) := by
  have hnd₂ : ∀ d ∈ l₂, (d.referencedHosts.map Prod.fst).Nodup := by
    intro d hd
    exact hnd d (hperm.mem_iff.mpr hd)
  have hfp : ∀ h, (hostFilter h l₁).Perm (hostFilter h l₂) := by
    intro h
    exact hperm.filter _
  refine ⟨?_, ?_, ?_, ?_, ?_⟩
  · intro h
    rw [triplesAt_mergeAll, triplesAt_mergeAll]
    by_cases hf : hostFilter h l₁ = []
    · have hf2 : hostFilter h l₂ = [] := by
        have hp := hfp h
        rw [hf] at hp
        exact hp.symm.eq_nil
      simp [hf, hf2]
    · have hf2 : hostFilter h l₂ ≠ [] := by
        intro hc
        apply hf
        have hp := hfp h
        rw [hc] at hp
        exact hp.eq_nil
      rw [if_neg hf, if_neg hf2]
      congr 1
      exact ((hfp h).map _).sum_eq
  · intro h k
    rw [refCountAt_mergeAll l₁ h k hnd, refCountAt_mergeAll l₂ h k hnd₂]
    exact ((hfp h).map _).sum_eq
  · intro h
    rw [provAt_mergeAll, provAt_mergeAll]
    exact (hfp h).map _
  · intro h
    exact provAt_mergeAll l₁ h
  · intro h
    exact provAt_mergeAll l₂ h

/-- First concrete processed dataset used in the merge witnesses. -/
def wd1 : ProcessedDataset := ⟨some "foo", ⟨"l1", "u1", 100⟩, [("x", 1)]⟩

/-- Second concrete processed dataset used in the merge witnesses. -/
def wd2 : ProcessedDataset := ⟨some "foo", ⟨"l2", "u2", 200⟩, [("y", 2), ("x", 3)]⟩

/-- Concrete instance of C6: merging `[wd1, wd2]` and `[wd2, wd1]` agrees on
the triples sum and on the count of host `x` under key `foo`, the provenance
lists are permutations, and provenance is in input order. -/
theorem merge_perm_invariant_witness :
    triplesAt (mergeAll [wd1, wd2]) ("foo") = triplesAt (mergeAll [wd2, wd1]) ("foo") ∧
    refCountAt (mergeAll [wd1, wd2]) ("foo") ("x") =
      refCountAt (mergeAll [wd2, wd1]) ("foo") ("x") ∧
    (provAt (mergeAll [wd1, wd2]) ("foo")).Perm (provAt (mergeAll [wd2, wd1]) ("foo")) ∧
    provAt (mergeAll [wd1, wd2]) ("foo") =
      (hostFilter ("foo") [wd1, wd2]).map ProcessedDataset.provenance := by
  obtain ⟨h1, h2, h3, h4, h5⟩ :=
    merge_perm_invariant [wd1, wd2] [wd2, wd1] (by decide) (by decide)
  exact ⟨h1 "foo", h2 "foo" "x", h3 "foo", h4 "foo"⟩

/-- C7: for every output of the merge step and every key present in it, the
entry's `triples` field equals the sum of the `numTriples` values of the
provenance records in that entry's provenance list. -/
theorem merged_triples_eq_prov_sum (l : List ProcessedDataset) (h : String)
    (e : MergedEntry) (hl : lookupKey (mergeAll l) h = some e) :
    e.triples = (e.provenance.map Provenance.numTriples).sum := by
  unfold mergeAll at hl
  rw [lookupKey_foldl_mergeStep] at hl
  simp only [lookupKey] at hl
  cases hf : hostFilter h l with
  | nil =>
      rw [hf] at hl
      simp at hl
  | cons d ds =>
      rw [hf] at hl
      simp only [Option.some, Option.some_inj] at hl
      subst hl
      rw [extendEntry_triples, extendEntry_prov]
      simp [seedEntry, List.map_map, Function.comp_def]

/-- Merged entry used in the C7 witness: scenario 3 of the spec with
declaredTriples 100 and 200 merging into 300. -/
def wEntry : MergedEntry := ⟨300, [⟨"lA", "uA", 100⟩, ⟨"lB", "uB", 200⟩], []⟩

/-- Concrete instance of C7 (scenario 3): two datasets with dominant host
`foo.org` and 100 and 200 declared triples merge into an entry whose
`triples` is 300, the sum over its provenance list. -/
theorem merged_triples_eq_prov_sum_witness :
    wEntry.triples = (wEntry.provenance.map Provenance.numTriples).sum :=
  merged_triples_eq_prov_sum
    [⟨some "foo.org", ⟨"lA", "uA", 100⟩, []⟩, ⟨some "foo.org", ⟨"lB", "uB", 200⟩, []⟩]
    ("foo.org") wEntry (by decide)

/-- Processed dataset whose `referencedHosts` is an address into an explicit
store of host-count maps: JavaScript object values are references, and the
final `reduce` stores and mutates maps through such references. -/
structure PDRef where
  mostOccurringHost : Option String
  provenance : Provenance
  refHosts : Nat
deriving DecidableEq

/-- Merged entry holding a reference to its host-count map. -/
structure EntryRef where
  triples : Nat
  provenance : List Provenance
  refHosts : Nat
deriving DecidableEq

/-- Read the host-count map at address `a` of the store. -/
def readStore (σ : List (List (String × Nat))) (a : Nat) : List (String × Nat) :=
  σ.getD a []

/-- Overwrite the host-count map at address `a` of the store. -/
def writeStore (σ : List (List (String × Nat))) (a : Nat)
    (v : List (String × Nat)) : List (List (String × Nat)) :=
  σ.set a v

/-- One step of the final `reduce` with explicit references: a new entry is
seeded with the dataset's own `referencedHosts` reference (the object literal
`{..., referencedHosts: current.referencedHosts}` copies the reference, not
the map); a later dataset with the same key folds its counts into the map
behind the entry's reference, mutating it in place. -/
def mergeStepRef (s : List (List (String × Nat)) × List (String × EntryRef))
    (d : PDRef) : List (List (String × Nat)) × List (String × EntryRef) :=
  match lookupKey s.2 (jsKeyOf d.mostOccurringHost) with
  | none =>
      (s.1, s.2 ++ [(jsKeyOf d.mostOccurringHost,
        ⟨d.provenance.numTriples, [d.provenance], d.refHosts⟩)])
  | some e =>
      (writeStore s.1 e.refHosts
         (addCounts (readStore s.1 e.refHosts) (readStore s.1 d.refHosts)),
       updateKey s.2 (jsKeyOf d.mostOccurringHost)
         ⟨e.triples + d.provenance.numTriples, e.provenance ++ [d.provenance],
          e.refHosts⟩)

/-- The whole merge reduction over the store model. -/
def mergeAllRef (σ : List (List (String × Nat))) (l : List PDRef) :
    List (List (String × Nat)) × List (String × EntryRef) :=
  l.foldl mergeStepRef (σ, [])

theorem readStore_writeStore (σ : List (List (String × Nat))) (a : Nat)
    (v : List (String × Nat)) (h : a < σ.length) :
    readStore (writeStore σ a v) a = v := by
  induction σ generalizing a with
  | nil => simp at h
  | cons x t ih =>
      cases a with
      | zero => simp [readStore, writeStore]
      | succ n =>
          have hn : n < t.length := by simpa using h
          simpa [readStore, writeStore, List.getD] using ih n hn

/-- First concrete referenced dataset for the C8 theorems. -/
def wr1 : PDRef := ⟨some "foo", ⟨"l1", "u1", 100⟩, 0⟩

/-- Second concrete referenced dataset for the C8 theorems. -/
def wr2 : PDRef := ⟨some "foo", ⟨"l2", "u2", 200⟩, 1⟩

/-- Counterexample to C8 as stated: with datasets `wr1` (map at address 0,
value `{x: 1}`) and `wr2` (map at address 1), merging the second dataset into
the entry seeded from the first changes the map stored at the first input's
address, so an input's `referencedHosts` map IS modified by the merge. -/
theorem merge_seed_no_copy_counterexample :
    readStore (mergeAllRef [[("x", 1)], [("y", 2)]] [wr1, wr2]).1 wr1.refHosts ≠
      readStore [[("x", 1)], [("y", 2)]] wr1.refHosts := by
  decide

/-- C8 amended: the merge step seeds a new entry with a reference to the
dataset's own `referencedHosts` map (no copy is made); merging a subsequent
dataset with the same dominant-host key therefore overwrites the map at the
first input's address with the combined counts, and the merged entry still
references the first input's map. -/
theorem merge_seed_aliases (σ : List (List (String × Nat))) (d₁ d₂ : PDRef)
    (ha : d₁.refHosts < σ.length)
    (hk : jsKeyOf d₁.mostOccurringHost = jsKeyOf d₂.mostOccurringHost) :
    readStore (mergeAllRef σ [d₁, d₂]).1 d₁.refHosts =
      addCounts (readStore σ d₁.refHosts) (readStore σ d₂.refHosts) ∧
    (lookupKey (mergeAllRef σ [d₁, d₂]).2 (jsKeyOf d₁.mostOccurringHost)).map
        EntryRef.refHosts = some d₁.refHosts := by
  have hall : mergeAllRef σ [d₁, d₂] =
      (writeStore σ d₁.refHosts
         (addCounts (readStore σ d₁.refHosts) (readStore σ d₂.refHosts)),
       [(jsKeyOf d₁.mostOccurringHost,
         ⟨d₁.provenance.numTriples + d₂.provenance.numTriples,
          [d₁.provenance] ++ [d₂.provenance], d₁.refHosts⟩)]) := by
    show mergeStepRef (mergeStepRef (σ, []) d₁) d₂ = _
    have h1 : mergeStepRef (σ, []) d₁ =
        (σ, [(jsKeyOf d₁.mostOccurringHost,
          (⟨d₁.provenance.numTriples, [d₁.provenance], d₁.refHosts⟩ : EntryRef))]) := rfl
    rw [h1]
    unfold mergeStepRef
    simp [lookupKey, ← hk, updateKey]
  rw [hall]
  constructor
  · exact readStore_writeStore σ d₁.refHosts _ ha
  · simp [lookupKey]

/-- Concrete instance of the amended C8 on `wr1`, `wr2`. -/
theorem merge_seed_aliases_witness :
    readStore (mergeAllRef [[("x", 1)], [("y", 2)]] [wr1, wr2]).1 wr1.refHosts =
      addCounts (readStore [[("x", 1)], [("y", 2)]] wr1.refHosts)
        (readStore [[("x", 1)], [("y", 2)]] wr2.refHosts) ∧
    (lookupKey (mergeAllRef [[("x", 1)], [("y", 2)]] [wr1, wr2]).2
        (jsKeyOf wr1.mostOccurringHost)).map EntryRef.refHosts = some wr1.refHosts :=
  merge_seed_aliases [[("x", 1)], [("y", 2)]] wr1 wr2 (by decide) (by decide)

/-- The JavaScript error values that can arise in the streaming pipeline:
a connection error passed by `request`, an N3 parse error, a thrown
`ReferenceError` (reading a variable that is not in scope), and the error
thrown by `N3.Util.getLiteralValue` on a non-literal term. -/
inductive JsErr where
  | connection
  | parse
  | reference (msg : String)
  | notLiteral
deriving DecidableEq

/-- One HTTP response as observed by the callback of `request`: whether the
request itself failed, the status code, and the outcome of parsing the body
(the triples the N3 parser delivers, and whether it ends in a parse error
instead of the completing `null` call). -/
structure Response where
  connectionError : Bool
  status : Nat
  triples : List Triple
  parseError : Bool
deriving DecidableEq

/-- One invocation of a `streamTriples` callback: an error argument, a
triple, or the final `null` triple signalling completion. -/
inductive CbEvent where
  | error (e : JsErr)
  | item (t : Triple)
  | done
deriving DecidableEq

/-- What a `streamTriples` call does overall: either a sequence of callback
invocations, or an exception thrown inside the HTTP callback (which never
reaches the `streamTriples` caller at all). -/
inductive StreamBehavior where
  | calls (events : List CbEvent)
  | throws (e : JsErr)
deriving DecidableEq

/-- The `streamTriples` function. On a connection error the callback receives
the error. On a non-200 status the source evaluates the variable `ldfURL`,
which is not in scope inside `streamTriples` (the parameter is named `url`),
so a `ReferenceError` is thrown before the intended `Error` is constructed
and the callback is never invoked. Otherwise the parser's callbacks are
forwarded: each triple, then either a parse error or the completing `null`. -/
def streamTriples (r : Response) : StreamBehavior :=
  if r.connectionError then StreamBehavior.calls [CbEvent.error JsErr.connection]
  else if r.status ≠ 200 then
    StreamBehavior.throws (JsErr.reference ("ldfURL is not defined"))
  else
    StreamBehavior.calls (r.triples.map CbEvent.item ++
      (if r.parseError then [CbEvent.error JsErr.parse] else [CbEvent.done]))

/-- The characters before the last double quote of the list, if any quote is
present (the greedy capture of the regex of `N3.Util.getLiteralValue`). -/
def beforeLastQuote (l : List Char) : Option (List Char) :=
  match l.reverse.dropWhile (fun c => c ≠ '"') with
  | [] => none
  | _ :: rest => some rest.reverse

/-- Models `N3.Util.getLiteralValue`: match the term against a leading double
quote and a greedy capture up to a closing double quote; `none` models the
exception thrown when the term is not a literal. -/
def getLiteralValueJs (s : String) : Option String :=
  match s.data with
  | '"' :: rest =>
      match beforeLastQuote rest with
      | none => none
      | some cs => some (String.mk cs)
  | _ => none

/-- Decimal value of a digit list. -/
def digitsVal (l : List Char) : Nat :=
  l.foldl (fun a c => a * 10 + (c.toNat - 48)) 0

/-- Models JavaScript `parseInt` on base-10 input: skip leading whitespace,
accept an optional sign, read the longest digit prefix; `none` models `NaN`
when no digits are found. -/
def parseIntJs (s : String) : Option Int :=
  match s.data.dropWhile (fun c => c.isWhitespace) with
  | '-' :: t =>
      match t.takeWhile (fun c => c.isDigit) with
      | [] => none
      | ds => some (-(digitsVal ds : Int))
  | '+' :: t =>
      match t.takeWhile (fun c => c.isDigit) with
      | [] => none
      | ds => some (digitsVal ds)
  | l =>
      match l.takeWhile (fun c => c.isDigit) with
      | [] => none
      | ds => some (digitsVal ds)

/-- Settlement state of the promise returned by `analyseData`. -/
inductive Outcome where
  | pending
  | resolved (m : List (String × Nat))
  | rejected (e : JsErr)
deriving DecidableEq

/-- Observable state of one `analyseData` run: the promise outcome plus the
exceptions thrown inside callbacks (uncaught; they never settle the promise). -/
structure AState where
  outcome : Outcome
  thrown : List JsErr
deriving DecidableEq

/-- Settling is first-wins: `resolve`/`reject` after the first settlement are
ignored. -/
def settle (st : AState) (o : Outcome) : AState :=
  match st.outcome with
  | Outcome.pending => ⟨o, st.thrown⟩
  | _ => st

/-- The shared mutable closure state of one sampling run: the `urls` map and
the `remainingPages` counter. -/
structure SRun where
  urls : List (String × Nat)
  remaining : Int
deriving DecidableEq

/-- The page callback of `analyseData` on one callback invocation: an error
rejects (first-wins); a data triple is aggregated into the shared `urls` map;
the completing `null` decrements `remainingPages` and resolves with `urls`
when the counter reaches zero. -/
def pageEventStep (isIRI : String → Bool) (host : String → String)
    (s : SRun × AState) : CbEvent → SRun × AState
  | CbEvent.error e => (s.1, settle s.2 (Outcome.rejected e))
  | CbEvent.item t => (⟨aggTriple isIRI host s.1.urls t, s.1.remaining⟩, s.2)
  | CbEvent.done =>
      if s.1.remaining - 1 = 0 then
        (⟨s.1.urls, s.1.remaining - 1⟩, settle s.2 (Outcome.resolved s.1.urls))
      else (⟨s.1.urls, s.1.remaining - 1⟩, s.2)

/-- Effect of one page's `streamTriples` call on the run state: a thrown
exception is recorded and never reaches the callback; otherwise the callback
processes each delivered event. -/
def pageStreamStep (isIRI : String → Bool) (host : String → String)
    (s : SRun × AState) (r : Response) : SRun × AState :=
  match streamTriples r with
  | StreamBehavior.throws e => (s.1, ⟨s.2.outcome, s.2.thrown ++ [e]⟩)
  | StreamBehavior.calls evs => evs.foldl (pageEventStep isIRI host) s

/-- The sampling fan-out of `analyseData`: `pagesToSample` page fetches, each
feeding the shared `urls`/`remainingPages` closure state; `pages i` is the
response of the fetch issued in loop iteration `i`. When `pagesToSample` is
not positive, the loop body never runs. -/
def runPages (isIRI : String → Bool) (host : String → String)
    (pages : Nat → Response) (p : Int) (st : AState) : AState :=
  ((List.range p.toNat).foldl
      (fun s i => pageStreamStep isIRI host s (pages i)) (⟨[], p⟩, st)).2

/-- The void vocabulary IRI carrying the declared triple count. -/
def voidTriplesIRI : String := "http://rdfs.org/ns/void#triples"

/-- The metadata callback of `analyseData` on one callback invocation: an
error rejects; the completing `null` does nothing; a triple whose subject is
the endpoint URL and whose predicate is the void triple-count property reads
the declared size and starts the sampling fan-out (a non-literal object makes
`getLiteralValue` throw; an unparsable size gives `NaN`, whose comparison in
the loop head runs the loop zero times). All other triples are ignored. -/
def metaStep (factor : ℚ) (isIRI : String → Bool) (host : String → String)
    (ldfURL : String) (pages : Nat → Response) (st : AState) : CbEvent → AState
  | CbEvent.error e => settle st (Outcome.rejected e)
  | CbEvent.done => st
  | CbEvent.item t =>
      if t.subject = ldfURL ∧ t.predicate = voidTriplesIRI then
        match getLiteralValueJs t.object with
        | none => ⟨st.outcome, st.thrown ++ [JsErr.notLiteral]⟩
        | some lit =>
            match parseIntJs lit with
            | none => st
            | some n => runPages isIRI host pages (pagesToSampleZ n factor) st
      else st

/-- The `analyseData` function: stream the root resource, scan its triples
for the declared-size metadata triple, and run the sampling fan-out. The
result is the final promise state (with any exceptions thrown in callbacks). -/
def analyseData (factor : ℚ) (isIRI : String → Bool) (host : String → String)
    (ldfURL : String) (meta : Response) (pages : Nat → Response) : AState :=
  match streamTriples meta with
  | StreamBehavior.throws e => ⟨Outcome.pending, [e]⟩
  | StreamBehavior.calls evs =>
      evs.foldl (metaStep factor isIRI host ldfURL pages) ⟨Outcome.pending, []⟩

theorem runPages_nonpos (isIRI : String → Bool) (host : String → String)
    (pages : Nat → Response) (p : Int) (hp : p ≤ 0) (st : AState) :
    runPages isIRI host pages p st = st := by
  unfold runPages
  rw [Int.toNat_of_nonpos hp]
  rfl

theorem pagesToSampleZ_nonpos (n : ℤ) (factor : ℚ) (hn : n ≤ 0) (hf : 0 < factor) :
    pagesToSampleZ n factor ≤ 0 := by
  unfold pagesToSampleZ
  have hnQ : (n : ℚ) ≤ 0 := by exact_mod_cast hn
  have hmul : (n : ℚ) * factor ≤ 0 := by nlinarith
  have h : (n : ℚ) * factor / 100 ≤ 0 := by linarith
  calc ⌈(n : ℚ) * factor / 100⌉ ≤ ⌈(0 : ℚ)⌉ := Int.ceil_le_ceil h
  _ = 0 := Int.ceil_zero

theorem analyseData_single_meta (factor : ℚ) (isIRI : String → Bool)
    (host : String → String) (ldfURL : String) (t : Triple)
    (pages : Nat → Response)
    (hsub : t.subject = ldfURL) (hpred : t.predicate = voidTriplesIRI)
    (lit : String) (hlit : getLiteralValueJs t.object = some lit)
    (n : Int) (hn : parseIntJs lit = some n) :
    analyseData factor isIRI host ldfURL ⟨false, 200, [t], false⟩ pages =
      runPages isIRI host pages (pagesToSampleZ n factor) ⟨Outcome.pending, []⟩ := by
  have hstream : streamTriples ⟨false, 200, [t], false⟩ =
      StreamBehavior.calls [CbEvent.item t, CbEvent.done] := rfl
  unfold analyseData
  rw [hstream]
  simp only [List.foldl_cons, List.foldl_nil]
  have hm : metaStep factor isIRI host ldfURL pages ⟨Outcome.pending, []⟩
      (CbEvent.item t) =
      runPages isIRI host pages (pagesToSampleZ n factor) ⟨Outcome.pending, []⟩ := by
    simp only [metaStep]
    rw [if_pos ⟨hsub, hpred⟩, hlit]
    simp only [hn]
  rw [hm]
  rfl

theorem foldl_metaStep_small (factor : ℚ) (isIRI : String → Bool)
    (host : String → String) (ldfURL : String) (pages : Nat → Response) :
    ∀ (ts : List Triple) (st : AState),
      (∀ t ∈ ts, t.subject = ldfURL → t.predicate = voidTriplesIRI →
        ∀ lit, getLiteralValueJs t.object = some lit →
          ∀ n : Int, parseIntJs lit = some n → pagesToSampleZ n factor ≤ 0) →
      ((ts.map CbEvent.item).foldl
          (metaStep factor isIRI host ldfURL pages) st).outcome = st.outcome := by
  intro ts
  induction ts with
  | nil =>
      intro st h
      rfl
  | cons t ts ih =>
      intro st h
      rw [List.map_cons, List.foldl_cons]
      rw [ih (metaStep factor isIRI host ldfURL pages st (CbEvent.item t))
        (fun t' ht' => h t' (List.mem_cons_of_mem t ht'))]
      by_cases hm : t.subject = ldfURL ∧ t.predicate = voidTriplesIRI
      · have hred : metaStep factor isIRI host ldfURL pages st (CbEvent.item t) =
            (match getLiteralValueJs t.object with
             | none => ⟨st.outcome, st.thrown ++ [JsErr.notLiteral]⟩
             | some lit =>
                match parseIntJs lit with
                | none => st
                | some n => runPages isIRI host pages (pagesToSampleZ n factor) st) := by
          simp only [metaStep]
          rw [if_pos hm]
        rw [hred]
        cases hlit : getLiteralValueJs t.object with
        | none => rfl
        | some lit =>
            show (match parseIntJs lit with
              | none => st
              | some n => runPages isIRI host pages (pagesToSampleZ n factor) st).outcome
              = st.outcome
            cases hn : parseIntJs lit with
            | none => rfl
            | some n =>
                show (runPages isIRI host pages (pagesToSampleZ n factor) st).outcome
                  = st.outcome
                rw [runPages_nonpos isIRI host pages _
                  (h t (List.mem_cons_self t ts) hm.1 hm.2 lit hlit n hn) st]
      · have hskip : metaStep factor isIRI host ldfURL pages st (CbEvent.item t) = st := by
          simp only [metaStep]
          rw [if_neg hm]
        rw [hskip]

theorem analyseData_pending_of_small (factor : ℚ) (isIRI : String → Bool)
    (host : String → String) (ldfURL : String) (meta : Response)
    (pages : Nat → Response)
    (hconn : meta.connectionError = false) (hstat : meta.status = 200)
    (hparse : meta.parseError = false)
    (hsmall : ∀ t ∈ meta.triples, t.subject = ldfURL → t.predicate = voidTriplesIRI →
      ∀ lit, getLiteralValueJs t.object = some lit →
        ∀ n : Int, parseIntJs lit = some n → pagesToSampleZ n factor ≤ 0) :
    (analyseData factor isIRI host ldfURL meta pages).outcome = Outcome.pending := by
  have hstream : streamTriples meta =
      StreamBehavior.calls (meta.triples.map CbEvent.item ++ [CbEvent.done]) := by
    unfold streamTriples
    rw [hconn, hstat, hparse]
    simp
  unfold analyseData
  rw [hstream]
  show ((meta.triples.map CbEvent.item ++ [CbEvent.done]).foldl
      (metaStep factor isIRI host ldfURL pages) ⟨Outcome.pending, []⟩).outcome =
    Outcome.pending
  rw [List.foldl_append]
  simp only [List.foldl_cons, List.foldl_nil]
  have hdone : ∀ st : AState,
      metaStep factor isIRI host ldfURL pages st CbEvent.done = st := fun _ => rfl
  rw [hdone]
  exact foldl_metaStep_small factor isIRI host ldfURL pages meta.triples
    ⟨Outcome.pending, []⟩ hsmall

/-- Metadata response declaring 500 triples for the endpoint. -/
def metaResp500 : Response :=
  ⟨false, 200, [⟨"http://e", voidTriplesIRI, "\"500\"", ""⟩], false⟩

/-- Page responses that all fail with HTTP status 500. -/
def pages500 : Nat → Response := fun _ => ⟨false, 500, [], false⟩

/-- C3 as the code actually behaves (the claim describes the intent): a page
fetch with status 500 makes `streamTriples` throw a `ReferenceError` for the
out-of-scope variable `ldfURL` inside the HTTP callback, so the callback
never receives a transport error, the analysis promise never rejects (it
stays pending with the exception recorded as uncaught), and no
`TransportError` reaches the caller. -/
theorem status500_reference_error_crash :
    streamTriples (pages500 0) =
      StreamBehavior.throws (JsErr.reference ("ldfURL is not defined")) ∧
    analyseData samplingFactorMain (fun _ => false) (fun s => s) ("http://e")
        metaResp500 pages500 =
      ⟨Outcome.pending, [JsErr.reference ("ldfURL is not defined")]⟩ := by
  constructor
  · rfl
  · have h1 : analyseData samplingFactorMain (fun _ => false) (fun s => s) ("http://e")
        metaResp500 pages500 =
        runPages (fun _ => false) (fun s => s) pages500
          (pagesToSampleZ 500 samplingFactorMain) ⟨Outcome.pending, []⟩ :=
      analyseData_single_meta samplingFactorMain (fun _ => false) (fun s => s)
        ("http://e") ⟨"http://e", voidTriplesIRI, "\"500\"", ""⟩ pages500 rfl rfl
        ("500") (by decide) 500 (by decide)
    have h2 : pagesToSampleZ 500 samplingFactorMain = 1 := by
      unfold pagesToSampleZ samplingFactorMain
      norm_num [Int.ceil_eq_iff]
    rw [h1, h2]
    decide

/-- Metadata response declaring 0 triples for the endpoint. -/
def metaResp0 : Response :=
  ⟨false, 200, [⟨"http://e", voidTriplesIRI, "\"0\"", ""⟩], false⟩

/-- Page responses that succeed with no triples (they are never fetched in
the zero-size scenario). -/
def pagesEmpty : Nat → Response := fun _ => ⟨false, 200, [], false⟩

/-- Counterexample to C4 as stated: with a metadata triple whose literal
parses to 0, the analysis does not reject with any error (there is no
`InvalidSizeError` anywhere in the code); the promise stays pending and
nothing is thrown. -/
theorem zero_size_no_reject_counterexample :
    analyseData samplingFactorMain (fun _ => false) (fun s => s) ("http://e")
        metaResp0 pagesEmpty = ⟨Outcome.pending, []⟩ := by
  have h1 : analyseData samplingFactorMain (fun _ => false) (fun s => s) ("http://e")
      metaResp0 pagesEmpty =
      runPages (fun _ => false) (fun s => s) pagesEmpty
        (pagesToSampleZ 0 samplingFactorMain) ⟨Outcome.pending, []⟩ :=
    analyseData_single_meta samplingFactorMain (fun _ => false) (fun s => s)
      ("http://e") ⟨"http://e", voidTriplesIRI, "\"0\"", ""⟩ pagesEmpty rfl rfl
      ("0") (by decide) 0 (by decide)
  have h2 : pagesToSampleZ 0 samplingFactorMain ≤ 0 := by
    unfold pagesToSampleZ samplingFactorMain
    norm_num
  rw [h1, runPages_nonpos (fun _ => false) (fun s => s) pagesEmpty
    (pagesToSampleZ 0 samplingFactorMain) h2 ⟨Outcome.pending, []⟩]

/-- C4 amended: for every metadata stream that successfully delivers its
triples and in which every declared-size literal parses to a non-positive
value, the sampling loop runs zero times and the analysis never settles
(neither resolves nor rejects); no `InvalidSizeError` exists in the code. -/
theorem analyseData_nonpositive_size_pending (factor : ℚ) (isIRI : String → Bool)
    (host : String → String) (ldfURL : String) (meta : Response)
    (pages : Nat → Response) (hf : 0 < factor)
    (hconn : meta.connectionError = false) (hstat : meta.status = 200)
    (hparse : meta.parseError = false)
    (hsize : ∀ t ∈ meta.triples, t.subject = ldfURL → t.predicate = voidTriplesIRI →
      ∀ lit, getLiteralValueJs t.object = some lit →
        ∀ n : Int, parseIntJs lit = some n → n ≤ 0) :
    (analyseData factor isIRI host ldfURL meta pages).outcome = Outcome.pending :=
  analyseData_pending_of_small factor isIRI host ldfURL meta pages hconn hstat hparse
    (fun t ht h1 h2 lit hlit n hn =>
      pagesToSampleZ_nonpos n factor (hsize t ht h1 h2 lit hlit n hn) hf)

/-- Concrete instance of the amended C4 at the zero-size metadata response. -/
theorem analyseData_nonpositive_size_pending_witness :
    (analyseData samplingFactorMain (fun _ => false) (fun s => s) ("http://e")
        metaResp0 pagesEmpty).outcome = Outcome.pending :=
  analyseData_nonpositive_size_pending samplingFactorMain (fun _ => false)
    (fun s => s) ("http://e") metaResp0 pagesEmpty
    (by norm_num [samplingFactorMain]) rfl rfl rfl
    (by
      intro t ht h1 h2 lit hlit n hn
      have hteq : t = ⟨"http://e", voidTriplesIRI, "\"0\"", ""⟩ := by
        simpa [metaResp0] using ht
      subst hteq
      have hv : getLiteralValueJs ("\"0\"") = some ("0") := by decide
      rw [hv] at hlit
      injection hlit with hlv
      subst hlv
      have hp : parseIntJs ("0") = some 0 := by decide
      rw [hp] at hn
      injection hn with hnv
      omega)

/-- Metadata response whose only triple is not the declared-size triple. -/
def metaNoSize : Response :=
  ⟨false, 200, [⟨"http://x", "http://p", "http://y", ""⟩], false⟩

/-- C9: if the root-resource stream completes, delivering only triples none
of which has the endpoint URL as subject and the void triple-count property
as predicate, the returned promise never resolves and never rejects: the
analysis stays pending instead of failing with an error. -/
theorem analyseData_no_size_triple_pending (factor : ℚ) (isIRI : String → Bool)
    (host : String → String) (ldfURL : String) (meta : Response)
    (pages : Nat → Response)
    (hconn : meta.connectionError = false) (hstat : meta.status = 200)
    (hparse : meta.parseError = false)
    (hmatch : ∀ t ∈ meta.triples,
      ¬(t.subject = ldfURL ∧ t.predicate = voidTriplesIRI)) :
    (analyseData factor isIRI host ldfURL meta pages).outcome = Outcome.pending :=
  analyseData_pending_of_small factor isIRI host ldfURL meta pages hconn hstat hparse
    (fun t ht h1 h2 _ _ _ _ => absurd ⟨h1, h2⟩ (hmatch t ht))

/-- Concrete instance of C9 at a metadata response with no size triple. -/
theorem analyseData_no_size_triple_pending_witness :
    (analyseData samplingFactorMain (fun _ => false) (fun s => s) ("http://e")
        metaNoSize pagesEmpty).outcome = Outcome.pending :=
  analyseData_no_size_triple_pending samplingFactorMain (fun _ => false)
    (fun s => s) ("http://e") metaNoSize pagesEmpty rfl rfl rfl (by decide)

theorem mem_keys_incrBy (m : List (String × Nat)) (k a : String) (v : Nat)
    (h : a ∈ (incrBy m k v).map Prod.fst) : a ∈ m.map Prod.fst ∨ a = k := by
  induction m with
  | nil => simpa [incrBy] using h
  | cons p t ih =>
      obtain ⟨k', w⟩ := p
      by_cases hk : k' = k
      · simp only [incrBy, if_pos hk, List.map_cons, List.mem_cons] at h ⊢
        tauto
      · simp only [incrBy, if_neg hk, List.map_cons, List.mem_cons] at h ⊢
        rcases h with h | h
        · tauto
        · rcases ih h with h' | h' <;> tauto

theorem incrBy_keys_nodup (m : List (String × Nat)) (k : String) (v : Nat)
    (h : (m.map Prod.fst).Nodup) : ((incrBy m k v).map Prod.fst).Nodup := by
  induction m with
  | nil => simp [incrBy]
  | cons p t ih =>
      obtain ⟨k', w⟩ := p
      rw [List.map_cons, List.nodup_cons] at h
      by_cases hk : k' = k
      · simp only [incrBy, if_pos hk, List.map_cons, List.nodup_cons]
        exact ⟨h.1, h.2⟩
      · simp only [incrBy, if_neg hk, List.map_cons, List.nodup_cons]
        refine ⟨?_, ih h.2⟩
        intro hmem
        rcases mem_keys_incrBy t k k' v hmem with h' | h'
        · exact h.1 h'
        · exact hk h'

theorem incrBy_counts_pos (m : List (String × Nat)) (k : String) (v : Nat)
    (h : ∀ p ∈ m, 0 < p.2) (hv : 0 < v) : ∀ p ∈ incrBy m k v, 0 < p.2 := by
  induction m with
  | nil =>
      intro p hp
      simp only [incrBy, List.mem_singleton] at hp
      subst hp
      exact hv
  | cons q t ih =>
      obtain ⟨k', w⟩ := q
      intro p hp
      by_cases hk : k' = k
      · simp only [incrBy, if_pos hk, List.mem_cons] at hp
        rcases hp with rfl | hp
        · have hw := h (k', w) (List.mem_cons_self _ _)
          simp only at hw ⊢
          omega
        · exact h p (List.mem_cons_of_mem _ hp)
      · simp only [incrBy, if_neg hk, List.mem_cons] at hp
        rcases hp with rfl | hp
        · exact h (k', w) (List.mem_cons_self _ _)
        · exact ih (fun q hq => h q (List.mem_cons_of_mem _ hq)) p hp

theorem foldl_hostTerms_inv (isIRI : String → Bool) (host : String → String)
    (es : List String) :
    ∀ u : List (String × Nat),
      ((u.map Prod.fst).Nodup ∧ ∀ p ∈ u, 0 < p.2) →
      (((es.foldl (fun u e => if isIRI e then incrBy u (host e) 1 else u) u).map
          Prod.fst).Nodup ∧
        ∀ p ∈ es.foldl (fun u e => if isIRI e then incrBy u (host e) 1 else u) u,
          0 < p.2) := by
  induction es with
  | nil => intro u hu; exact hu
  | cons e es ih =>
      intro u hu
      rw [List.foldl_cons]
      by_cases he : isIRI e
      · rw [if_pos he]
        exact ih (incrBy u (host e) 1)
          ⟨incrBy_keys_nodup u (host e) 1 hu.1,
           incrBy_counts_pos u (host e) 1 hu.2 (by omega)⟩
      · rw [if_neg he]
        exact ih u hu

theorem aggTriple_inv (isIRI : String → Bool) (host : String → String)
    (u : List (String × Nat)) (t : Triple)
    (hu : (u.map Prod.fst).Nodup ∧ ∀ p ∈ u, 0 < p.2) :
    (((aggTriple isIRI host u t).map Prod.fst).Nodup ∧
      ∀ p ∈ aggTriple isIRI host u t, 0 < p.2) := by
  unfold aggTriple
  by_cases hg : t.graph ≠ ""
  · rw [if_pos hg]
    exact hu
  · rw [if_neg hg]
    exact foldl_hostTerms_inv isIRI host [t.subject, t.predicate, t.object] u hu

/-- Every host-count map the aggregation produces has unique keys and only
positive counts: the hypotheses under which C5's selection property is proved
hold for every map the program hands to `process`. -/
theorem aggregateTriples_inv (isIRI : String → Bool) (host : String → String)
    (ts : List Triple) :
    ((aggregateTriples isIRI host ts).map Prod.fst).Nodup ∧
      ∀ p ∈ aggregateTriples isIRI host ts, 0 < p.2 := by
  unfold aggregateTriples
  have hgen : ∀ u : List (String × Nat),
      ((u.map Prod.fst).Nodup ∧ ∀ p ∈ u, 0 < p.2) →
      (((ts.foldl (aggTriple isIRI host) u).map Prod.fst).Nodup ∧
        ∀ p ∈ ts.foldl (aggTriple isIRI host) u, 0 < p.2) := by
    induction ts with
    | nil => intro u hu; exact hu
    | cons t ts ih =>
        intro u hu
        rw [List.foldl_cons]
        exact ih (aggTriple isIRI host u t) (aggTriple_inv isIRI host u t hu)
  exact hgen [] ⟨by simp, by simp⟩
